import Mathlib

/-!
# Verification of the `idx-decoder` crate (`src/lib.rs`)

A shallow embedding of the IDX-format streaming decoder:

* the byte source (`R: Read`) is modelled as a `List Byte` consumed from the
  front, the way `std::io::Cursor` consumes an in-memory buffer;
* the element-type markers of `mod types` become the inductive `IDXType`;
* decoded elements become the inductive `Value`; a float is represented by the
  IEEE-754 bit pattern produced by `fN::from_bits(uN::from_be_bytes(buf))`,
  which is exactly the data the source computes;
* `IDXDecoder::new` becomes `IDXDecoder.new`, the two `Iterator::next`
  implementations become `next1` (for `nalgebra::U1`) and `next3`
  (for `nalgebra::U3`), with the platform pointer width (`usize` bits)
  passed explicitly as `W`;
* machine integers are `Nat` with explicit `2 ^ W` bounds where the source
  uses `try_into` / `checked_mul`.
-/

set_option maxRecDepth 8000

namespace Idx

/-- A byte (`u8`), as stored in the stream. -/
abbrev Byte := Fin 256

/-- The element-type markers of `mod types` (`U8, I8, I16, I32, F32, F64`),
a closed (sealed) set in the source. -/
inductive IDXType where
  | U8
  | I8
  | I16
  | I32
  | F32
  | F64
deriving DecidableEq

/-- `Type::VALUE`: the wire tag byte of each element type
(`0x08, 0x09, 0x0b, 0x0c, 0x0d, 0x0e`). -/
def IDXType.VALUE : IDXType → Nat
  | .U8 => 0x08
  | .I8 => 0x09
  | .I16 => 0x0b
  | .I32 => 0x0c
  | .F32 => 0x0d
  | .F64 => 0x0e

/-- `size_of::<T::TypeValue>()`: how many bytes one element occupies
(`u8`/`i8`: 1, `i16`: 2, `i32`: 4, `f32`: 4, `f64`: 8). -/
def IDXType.size : IDXType → Nat
  | .U8 => 1
  | .I8 => 1
  | .I16 => 2
  | .I32 => 4
  | .F32 => 4
  | .F64 => 8

/-- The tag as a byte; `Type::VALUE` has type `u8` in the source. -/
def IDXType.tagByte (t : IDXType) : Byte := ⟨t.VALUE, by cases t <;> decide⟩

/-- `uN::from_be_bytes`: big-endian accumulation of a byte buffer.  The result
is below `256 ^ bs.length`, so no wraparound is possible. -/
def beValue (bs : List Byte) : Nat := bs.foldl (fun acc b => acc * 256 + b.val) 0

/-- Two's-complement reinterpretation of a `w`-bit unsigned value, as performed
by `iN::from_be_bytes` on the same buffer. -/
def toSigned (w : Nat) (n : Nat) : Int :=
  if n < 2 ^ (w - 1) then (n : Int) else (n : Int) - 2 ^ w

/-- One decoded element (`T::TypeValue`).  Floats carry the bit pattern that
`fN::from_bits` receives: the source never performs any textual or scaled
conversion, so the bit pattern is the entire content of the value. -/
inductive Value where
  | u8 (v : Nat)
  | i8 (v : Int)
  | i16 (v : Int)
  | i32 (v : Int)
  | f32 (bits : Nat)
  | f64 (bits : Nat)
deriving DecidableEq

/-- Decoding of one `size` -byte buffer, per element type: the body of the
`from_be_bytes` / `from_bits(from_be_bytes(..))` expressions in the
`new_type_int!` and `new_type_f!` macros. -/
def decodeBytes (t : IDXType) (buf : List Byte) : Value :=
  match t with
  | .U8 => .u8 (beValue buf)
  | .I8 => .i8 (toSigned 8 (beValue buf))
  | .I16 => .i16 (toSigned 16 (beValue buf))
  | .I32 => .i32 (toSigned 32 (beValue buf))
  | .F32 => .f32 (beValue buf)
  | .F64 => .f64 (beValue buf)

/-- `BEReadable::read_self`: `read_exact` a `size_of::<Self>()` buffer, then
decode it.  On a short read, `read_exact` returns `Err`, `.ok()?` turns it into
`None`, and the in-memory reader has been drained of its remaining bytes
(the default `Read::read_exact` loop consumes what is available before
reporting `UnexpectedEof`). -/
def read_self (t : IDXType) (s : List Byte) : Option Value × List Byte :=
  if t.size ≤ s.length then (some (decodeBytes t (s.take t.size)), s.drop t.size)
  else (none, [])

/-- `IDXError`: the error enum returned by `IDXDecoder::new`.
`IoError` models the `IOError(io::Error)` variant (the payload is dropped:
the claims only distinguish variants). -/
inductive IDXError where
  | WrongMagic
  | WrongType (expected actual : Nat)
  | WrongDimensions (expected actual : Nat)
  | IoError
deriving DecidableEq

/-- `IDXDecoder<R, T, D>`: the reader and the mutable dimensions vector.
`dimensions` models `VectorN<u32, D>` as a list of parsed `u32` values whose
length is the dimensionality `D` by construction (`PhantomData<T>` carries no
data; the element type is passed to each operation instead). -/
structure IDXDecoder where
  reader : List Byte
  dimensions : List Nat
deriving DecidableEq

/-- One big-endian `u32` read (`read_exact` of 4 bytes + `u32::from_be_bytes`),
used for each dimension field. -/
def readU32 (s : List Byte) : Option (Nat × List Byte) :=
  match s with
  | b0 :: b1 :: b2 :: b3 :: rest => some (beValue [b0, b1, b2, b3], rest)
  | _ => none

/-- The dimension-reading loop of `IDXDecoder::new`: `D` successive big-endian
`u32` reads, in header order. -/
def readDims : Nat → List Byte → Option (List Nat × List Byte)
  | 0, s => some ([], s)
  | n + 1, s =>
    match readU32 s with
    | none => none
    | some (d, s1) =>
      match readDims n s1 with
      | none => none
      | some (ds, s2) => some (d :: ds, s2)

/-- `IDXDecoder::new`: read the 4-byte header, check magic bytes, the element
type tag and the dimensionality byte in that order, then read `D` big-endian
`u32` dimension values.  `D` is `D::dim()`; its `u8` conversion is elided
because it succeeds for every dimensionality the crate's iterators support
(and for any `D ≤ 255`). A stream shorter than the header or the dimension
block fails with `IoError` (the `?` on `read_exact`). -/
def IDXDecoder.new (T : IDXType) (D : Nat) (s : List Byte) : Except IDXError IDXDecoder :=
  match s with
  | b0 :: b1 :: b2 :: b3 :: rest =>
    if b0 ≠ 0 ∨ b1 ≠ 0 then .error .WrongMagic
    else if b2.val ≠ T.VALUE then .error (.WrongType T.VALUE b2.val)
    else if b3.val ≠ D then .error (.WrongDimensions D b3.val)
    else
      match readDims D rest with
      | none => .error .IoError
      | some (dims, rest2) => .ok ⟨rest2, dims⟩
  | _ => .error .IoError

/-- `Iterator::next` for `IDXDecoder<R, T, U1>`: if `dimensions[0] > 0`,
decrement it and decode one element with `read_self`; otherwise `None`.
The decrement happens before the read, so it occurs even when the read
fails. -/
def next1 (T : IDXType) (dec : IDXDecoder) : Option Value × IDXDecoder :=
  if 0 < dec.dimensions.getD 0 0 then
    ((read_self T dec.reader).1,
      ⟨(read_self T dec.reader).2, dec.dimensions.set 0 (dec.dimensions.getD 0 0 - 1)⟩)
  else (none, dec)

/-- `n.try_into().ok()` for `u32 → usize` on a platform whose `usize` has `W`
bits (the `as_usize` closure in the `U3` iterator). -/
def as_usize (W : Nat) (n : Nat) : Option Nat :=
  if n < 2 ^ W then some n else none

/-- `usize::checked_mul` on a `W`-bit platform: `none` exactly when the true
product does not fit, never a wrapped result. -/
def checked_mul (W : Nat) (a b : Nat) : Option Nat :=
  if a * b < 2 ^ W then some (a * b) else none

/-- The row-filling loop of the `U3` iterator: `len` successive `read_self`
calls (`vec![Default::default(); len]` then `*item = read_self(..)?`).
Fails, and the partially filled vector is dropped, as soon as one element
read fails. -/
def readRow (T : IDXType) : Nat → List Byte → Option (List Value) × List Byte
  | 0, s => (some [], s)
  | n + 1, s =>
    match read_self T s with
    | (none, s1) => (none, s1)
    | (some v, s1) =>
      match readRow T n s1 with
      | (none, s2) => (none, s2)
      | (some vs, s2) => (some (v :: vs), s2)

/-- `Iterator::next` for `IDXDecoder<R, T, U3>` on a `W`-bit platform:
if `dimensions[0] > 0`, decrement it, convert `dimensions[1]` and
`dimensions[2]` to `usize`, `checked_mul` them, and read that many elements;
any `?` failure yields `None` for the whole call.  The conversion and
multiplication failures happen before any byte is read. -/
def next3 (W : Nat) (T : IDXType) (dec : IDXDecoder) : Option (List Value) × IDXDecoder :=
  if 0 < dec.dimensions.getD 0 0 then
    match as_usize W (dec.dimensions.getD 1 0), as_usize W (dec.dimensions.getD 2 0) with
    | some a, some b =>
      match checked_mul W a b with
      | some len =>
        ((readRow T len dec.reader).1,
          ⟨(readRow T len dec.reader).2,
            dec.dimensions.set 0 (dec.dimensions.getD 0 0 - 1)⟩)
      | none => (none, ⟨dec.reader, dec.dimensions.set 0 (dec.dimensions.getD 0 0 - 1)⟩)
    | _, _ => (none, ⟨dec.reader, dec.dimensions.set 0 (dec.dimensions.getD 0 0 - 1)⟩)
  else (none, dec)

/-- `Iterator::size_hint` for the `U1` instance.  The source impl for
`IDXDecoder<R, T, U1>` does not override `size_hint`, so Rust's default
implementation applies, and it returns `(0, None)` for every state. -/
def size_hint1 (_dec : IDXDecoder) : Nat × Option Nat := (0, none)

/-- `Iterator::size_hint` for the `U3` instance (lines 238-240 of the source):
`(0, self.dimensions[0].try_into().ok())`. -/
def size_hint3 (W : Nat) (dec : IDXDecoder) : Nat × Option Nat :=
  (0, as_usize W (dec.dimensions.getD 0 0))

/-- `n` successive `next()` calls on the `U1` iterator, collecting each
returned `Option` in order together with the final decoder state. -/
def iterate1 (T : IDXType) : IDXDecoder → Nat → List (Option Value) × IDXDecoder
  | dec, 0 => ([], dec)
  | dec, n + 1 =>
    (((next1 T dec).1 :: (iterate1 T (next1 T dec).2 n).1),
      (iterate1 T (next1 T dec).2 n).2)

/-- `n` successive `next()` calls on the `U3` iterator. -/
def iterate3 (W : Nat) (T : IDXType) : IDXDecoder → Nat → List (Option (List Value)) × IDXDecoder
  | dec, 0 => ([], dec)
  | dec, n + 1 =>
    (((next3 W T dec).1 :: (iterate3 W T (next3 W T dec).2 n).1),
      (iterate3 W T (next3 W T dec).2 n).2)

/-- The values of the `k` complete elements at the front of a stream: the
sequence of successful `read_self` results.  Stops early if fewer than `k`
complete elements are present. -/
def decodeMany (T : IDXType) : Nat → List Byte → List Value
  | 0, _ => []
  | k + 1, s =>
    if T.size ≤ s.length then
      decodeBytes T (s.take T.size) :: decodeMany T k (s.drop T.size)
    else []

/-- How many calls in a result list produced an item. -/
def countSome : List (Option Value) → Nat
  | [] => 0
  | some _ :: t => countSome t + 1
  | none :: t => countSome t

/-- The 4-byte big-endian encoding of a `u32` value, most significant byte
first: the wire form of one dimension field. -/
def be32 (n : Nat) : List Byte :=
  [⟨n / 2 ^ 24 % 256, by omega⟩, ⟨n / 2 ^ 16 % 256, by omega⟩,
    ⟨n / 2 ^ 8 % 256, by omega⟩, ⟨n % 256, by omega⟩]

/-- The dimension block of a header: each dimension as a big-endian `u32`, in
header order. -/
def encodeDims : List Nat → List Byte
  | [] => []
  | d :: ds => be32 d ++ encodeDims ds

/-- A full well-formed header: zero magic bytes, the tag of `T`, the
dimensionality byte, then the dimension block. -/
def mkHeader (T : IDXType) (D : Nat) (dims : List Nat) : List Byte :=
  [0, 0, T.tagByte, ⟨D % 256, by omega⟩] ++ encodeDims dims



theorem IDXType.size_pos (t : IDXType) : 0 < t.size := by cases t <;> decide

/-- `next()` on the exhausted `U1` iterator: no read, no state change. -/
theorem next1_zero (T : IDXType) (dec : IDXDecoder) (h : dec.dimensions.getD 0 0 = 0) :
    next1 T dec = (none, dec) := by
  unfold next1
  rw [if_neg]
  omega

/-- `next()` on the `U1` iterator with items remaining: decrement, then read. -/
theorem next1_read (T : IDXType) (dec : IDXDecoder) (h : 0 < dec.dimensions.getD 0 0) :
    next1 T dec =
      ((read_self T dec.reader).1,
        ⟨(read_self T dec.reader).2, dec.dimensions.set 0 (dec.dimensions.getD 0 0 - 1)⟩) := by
  unfold next1
  rw [if_pos h]

theorem iterate1_shape (T : IDXType) :
    ∀ (n : Nat) (rd : List Byte) (dims : List Nat),
      (iterate1 T ⟨rd, dims⟩ n).1 =
        (decodeMany T (min n (min (dims.getD 0 0) (rd.length / T.size))) rd).map some ++
          List.replicate (n - min n (min (dims.getD 0 0) (rd.length / T.size))) none := by
  intro n
  induction n with
  | zero => intro rd dims; simp [iterate1, decodeMany]
  | succ n ih =>
    intro rd dims
    rcases Nat.eq_zero_or_pos (dims.getD 0 0) with h0 | h0
    · have hx : next1 T ⟨rd, dims⟩ = (none, ⟨rd, dims⟩) := next1_zero T _ h0
      have hih := ih rd dims
      rw [h0] at hih ⊢
      simp only [Nat.zero_min, Nat.min_zero, Nat.sub_zero, decodeMany, List.map_nil,
        List.nil_append] at hih ⊢
      simp [iterate1, hx, hih, List.replicate_succ]
    · obtain ⟨d0, tl, rfl⟩ : ∃ d0 tl, dims = d0 :: tl := by
        cases dims with
        | nil => simp at h0
        | cons a l => exact ⟨a, l, rfl⟩
      simp only [List.getD_cons_zero] at h0 ⊢
      by_cases hr : T.size ≤ rd.length
      · have hx : next1 T ⟨rd, d0 :: tl⟩ =
            (some (decodeBytes T (List.take T.size rd)),
              ⟨List.drop T.size rd, (d0 - 1) :: tl⟩) := by
          rw [next1_read T ⟨rd, d0 :: tl⟩ (by simpa using h0)]
          simp [read_self, hr]
        have hq : rd.length / T.size = (rd.length - T.size) / T.size + 1 :=
          Nat.div_eq_sub_div T.size_pos hr
        have hih := ih (List.drop T.size rd) ((d0 - 1) :: tl)
        simp only [List.getD_cons_zero, List.length_drop] at hih
        have hM : min (n + 1) (min d0 (rd.length / T.size)) =
            min n (min (d0 - 1) ((rd.length - T.size) / T.size)) + 1 := by
          rw [hq]; omega
        rw [hM]
        simp only [iterate1, hx, decodeMany]
        rw [if_pos hr, hih]
        simp [Nat.succ_sub_succ]
      · have hx : next1 T ⟨rd, d0 :: tl⟩ = (none, ⟨[], (d0 - 1) :: tl⟩) := by
          rw [next1_read T ⟨rd, d0 :: tl⟩ (by simpa using h0)]
          simp [read_self, hr]
        have hq0 : rd.length / T.size = 0 := Nat.div_eq_of_lt (Nat.lt_of_not_le hr)
        have hih := ih [] ((d0 - 1) :: tl)
        simp only [List.getD_cons_zero, List.length_nil, Nat.zero_div, Nat.min_zero,
          Nat.sub_zero, decodeMany, List.map_nil, List.nil_append] at hih
        rw [hq0]
        simp only [Nat.min_zero, Nat.sub_zero, decodeMany, List.map_nil, List.nil_append]
        simp [iterate1, hx, hih, List.replicate_succ]


theorem as_usize_some {W n a : Nat} (h : as_usize W n = some a) : a = n ∧ n < 2 ^ W := by
  by_cases hn : n < 2 ^ W
  · simp [as_usize, hn] at h
    exact ⟨h.symm, hn⟩
  · simp [as_usize, hn] at h

theorem checked_mul_some {W a b len : Nat} (h : checked_mul W a b = some len) :
    len = a * b ∧ a * b < 2 ^ W := by
  by_cases hm : a * b < 2 ^ W
  · simp [checked_mul, hm] at h
    exact ⟨h.symm, hm⟩
  · simp [checked_mul, hm] at h

theorem readRow_length (T : IDXType) :
    ∀ (n : Nat) (s : List Byte) (vs : List Value) (s2 : List Byte),
      readRow T n s = (some vs, s2) → vs.length = n := by
  intro n
  induction n with
  | zero =>
    intro s vs s2 h
    simp only [readRow, Prod.mk.injEq, Option.some.injEq] at h
    simp [← h.1]
  | succ n ih =>
    intro s vs s2 h
    simp only [readRow] at h
    cases hr : read_self T s with
    | mk r srest =>
      rw [hr] at h
      cases r with
      | none => simp at h
      | some v =>
        simp only at h
        cases hrr : readRow T n srest with
        | mk rr s3 =>
          rw [hrr] at h
          cases rr with
          | none => simp at h
          | some vs2 =>
            simp only [Prod.mk.injEq, Option.some.injEq] at h
            rw [← h.1]
            simp [ih srest vs2 s3 hrr]

theorem decodeMany_length (T : IDXType) :
    ∀ (k : Nat) (s : List Byte), T.size * k ≤ s.length → (decodeMany T k s).length = k := by
  intro k
  induction k with
  | zero => intro s _; simp [decodeMany]
  | succ k ih =>
    intro s h
    rw [Nat.mul_succ] at h
    have hs : T.size ≤ s.length := Nat.le_trans (Nat.le_add_left _ _) h
    simp only [decodeMany, if_pos hs, List.length_cons]
    rw [ih (s.drop T.size) (by simp [List.length_drop]; omega)]

theorem decodeMany_length_le (T : IDXType) :
    ∀ (k : Nat) (s : List Byte), (decodeMany T k s).length ≤ k := by
  intro k
  induction k with
  | zero => intro s; simp [decodeMany]
  | succ k ih =>
    intro s
    by_cases h : T.size ≤ s.length
    · simp only [decodeMany, if_pos h, List.length_cons]
      exact Nat.succ_le_succ (ih _)
    · simp [decodeMany, if_neg h]

theorem countSome_replicate (k : Nat) : countSome (List.replicate k none) = 0 := by
  induction k with
  | zero => simp [List.replicate, countSome]
  | succ k ih => simp [List.replicate_succ, countSome, ih]

theorem countSome_map_some (vs : List Value) (l : List (Option Value)) :
    countSome (vs.map some ++ l) = vs.length + countSome l := by
  induction vs with
  | nil => simp [countSome]
  | cons v vs ih =>
    simp only [List.map_cons, List.cons_append, List.length_cons]
    have hstep : countSome (some v :: (List.map some vs ++ l)) =
        countSome (List.map some vs ++ l) + 1 := rfl
    rw [hstep, ih]
    omega

theorem beValue_be32 (n : Nat) (h : n < 2 ^ 32) : beValue (be32 n) = n := by
  simp only [be32, beValue, List.foldl]
  omega

theorem readU32_be32 (n : Nat) (h : n < 2 ^ 32) (s : List Byte) :
    readU32 (be32 n ++ s) = some (n, s) := by
  have hv := beValue_be32 n h
  simp only [be32] at hv
  simp only [be32, List.cons_append, List.nil_append, readU32, hv]

theorem readDims_encodeDims :
    ∀ (ds : List Nat), (∀ d ∈ ds, d < 2 ^ 32) →
      ∀ s, readDims ds.length (encodeDims ds ++ s) = some (ds, s) := by
  intro ds
  induction ds with
  | nil => intro _ s; simp [encodeDims, readDims]
  | cons d ds ih =>
    intro hb s
    have hd : d < 2 ^ 32 := hb d (by simp)
    simp only [encodeDims, List.length_cons, List.append_assoc, readDims,
      readU32_be32 d hd]
    rw [ih (fun x hx => hb x (by simp [hx])) s]

theorem iterate3_exhausted (W : Nat) (T : IDXType) :
    ∀ (k : Nat) (dec : IDXDecoder), dec.dimensions.getD 0 0 = 0 →
      iterate3 W T dec k = (List.replicate k none, dec) := by
  intro k
  induction k with
  | zero => intro dec h; simp [iterate3]
  | succ k ih =>
    intro dec h
    have hx : next3 W T dec = (none, dec) := by
      unfold next3
      rw [if_neg (by omega)]
    simp [iterate3, hx, ih dec h, List.replicate_succ]


/-- Claim C1: a `U1` decoder constructed over a stream whose header declares
count `c` and whose payload holds at least `c` complete elements yields
exactly `c` decoded values, and every call from the `(c+1)`-th on returns
`none` (idempotent exhaustion). -/
theorem exact_count_1d (T : IDXType) (s : List Byte) (dec : IDXDecoder) (c k : Nat)
    (hnew : IDXDecoder.new T 1 s = Except.ok dec)
    (hc : dec.dimensions = [c])
    (hp : T.size * c ≤ dec.reader.length) :
    (iterate1 T dec (c + k)).1 =
      (decodeMany T c dec.reader).map some ++ List.replicate k none ∧
    (decodeMany T c dec.reader).length = c := by
  obtain ⟨rd, dims⟩ := dec
  dsimp only at hc hp ⊢
  subst hc
  have hq : c ≤ rd.length / T.size :=
    (Nat.le_div_iff_mul_le T.size_pos).mpr (by rw [Nat.mul_comm]; exact hp)
  have hshape := iterate1_shape T (c + k) rd [c]
  simp only [List.getD_cons_zero] at hshape
  have hmin : min (c + k) (min c (rd.length / T.size)) = c := by omega
  rw [hmin] at hshape
  refine ⟨?_, decodeMany_length T c rd hp⟩
  rw [hshape, Nat.add_sub_cancel_left]

theorem exact_count_1d_witness :
    (iterate1 .U8 ⟨[1, 2, 3], [3]⟩ (3 + 2)).1 =
      (decodeMany .U8 3 [1, 2, 3]).map some ++ List.replicate 2 none ∧
    (decodeMany .U8 3 ([1, 2, 3] : List Byte)).length = 3 :=
  exact_count_1d .U8 [0, 0, 8, 1, 0, 0, 0, 3, 1, 2, 3] ⟨[1, 2, 3], [3]⟩ 3 2 rfl rfl
    (by decide)

/-- Claim C4: a `U1` decoder over a truncated stream (count `c` declared but
fewer than `c` complete elements present) yields the complete elements and
then `none` forever; the short read surfaces as termination, not as an
error value (the iterator item type has no error channel at all). -/
theorem truncated_stream_1d (T : IDXType) (s : List Byte) (dec : IDXDecoder) (c k : Nat)
    (hnew : IDXDecoder.new T 1 s = Except.ok dec)
    (hc : dec.dimensions = [c])
    (hp : dec.reader.length < T.size * c) :
    (iterate1 T dec (c + k)).1 =
      (decodeMany T (dec.reader.length / T.size) dec.reader).map some ++
        List.replicate (c + k - dec.reader.length / T.size) none ∧
    (decodeMany T (dec.reader.length / T.size) dec.reader).length =
      dec.reader.length / T.size := by
  obtain ⟨rd, dims⟩ := dec
  dsimp only at hc hp ⊢
  subst hc
  have hq : rd.length / T.size < c :=
    (Nat.div_lt_iff_lt_mul T.size_pos).mpr (by rw [Nat.mul_comm] at hp; exact hp)
  have hshape := iterate1_shape T (c + k) rd [c]
  simp only [List.getD_cons_zero] at hshape
  have hmin : min (c + k) (min c (rd.length / T.size)) = rd.length / T.size := by omega
  rw [hmin] at hshape
  refine ⟨hshape, decodeMany_length T _ rd ?_⟩
  rw [Nat.mul_comm]
  exact Nat.div_mul_le_self _ _

theorem truncated_stream_1d_witness :
    (iterate1 .U8 ⟨[1, 2], [3]⟩ (3 + 1)).1 =
      (decodeMany .U8 2 [1, 2]).map some ++ List.replicate 2 none ∧
    (decodeMany .U8 2 ([1, 2] : List Byte)).length = 2 :=
  truncated_stream_1d .U8 [0, 0, 8, 1, 0, 0, 0, 3, 1, 2] ⟨[1, 2], [3]⟩ 3 1 rfl rfl
    (by decide)


/-- Claim C2: every row the `U3` iterator returns successfully has length
exactly `dimensions[1] * dimensions[2]`; a mid-row element failure makes the
whole call return `none`, so no partial row is ever emitted (the only
possible results are `none` or a full row). -/
theorem row_length_3d (W : Nat) (T : IDXType) (dec dec2 : IDXDecoder) (row : List Value)
    (h : next3 W T dec = (some row, dec2)) :
    row.length = dec.dimensions.getD 1 0 * dec.dimensions.getD 2 0 := by
  by_cases h0 : 0 < dec.dimensions.getD 0 0
  · unfold next3 at h
    rw [if_pos h0] at h
    cases hA : as_usize W (dec.dimensions.getD 1 0) with
    | none => rw [hA] at h; simp at h
    | some a =>
      cases hB : as_usize W (dec.dimensions.getD 2 0) with
      | none => rw [hA, hB] at h; simp at h
      | some b =>
        rw [hA, hB] at h
        dsimp only at h
        cases hM : checked_mul W a b with
        | none => rw [hM] at h; simp at h
        | some len =>
          rw [hM] at h
          dsimp only at h
          cases hR : readRow T len dec.reader with
          | mk r srest =>
            rw [hR] at h
            dsimp only at h
            simp only [Prod.mk.injEq] at h
            obtain ⟨h1, _⟩ := h
            subst h1
            have hlen := readRow_length T len dec.reader row srest hR
            obtain ⟨ha, _⟩ := as_usize_some hA
            obtain ⟨hb, _⟩ := as_usize_some hB
            obtain ⟨hm, _⟩ := checked_mul_some hM
            rw [hlen, hm, ha, hb]
  · unfold next3 at h
    rw [if_neg h0] at h
    simp at h

theorem row_length_3d_witness :
    ([Value.u8 1, Value.u8 2, Value.u8 3, Value.u8 4] : List Value).length =
      (⟨[1, 2, 3, 4, 5, 6, 7, 8], [3, 2, 2]⟩ : IDXDecoder).dimensions.getD 1 0 *
        (⟨[1, 2, 3, 4, 5, 6, 7, 8], [3, 2, 2]⟩ : IDXDecoder).dimensions.getD 2 0 :=
  row_length_3d 64 .U8 ⟨[1, 2, 3, 4, 5, 6, 7, 8], [3, 2, 2]⟩ ⟨[5, 6, 7, 8], [2, 2, 2]⟩
    [Value.u8 1, Value.u8 2, Value.u8 3, Value.u8 4] rfl

/-- Claim C3: header validation is short-circuiting in the order magic bytes,
element-type tag, dimensionality byte.  Non-zero magic always yields
`WrongMagic` whatever the later bytes; a tag mismatch (with good magic)
yields `WrongType(declared, actual)`; a dimensionality mismatch (with good
magic and tag) yields `WrongDimensions(declared, actual)`. -/
theorem header_validation_order :
    (∀ (T : IDXType) (D : Nat) (b0 b1 b2 b3 : Byte) (rest : List Byte),
        b0 ≠ 0 ∨ b1 ≠ 0 →
        IDXDecoder.new T D (b0 :: b1 :: b2 :: b3 :: rest) = .error .WrongMagic) ∧
    (∀ (T : IDXType) (D : Nat) (b2 b3 : Byte) (rest : List Byte),
        b2.val ≠ T.VALUE →
        IDXDecoder.new T D (0 :: 0 :: b2 :: b3 :: rest) =
          .error (.WrongType T.VALUE b2.val)) ∧
    (∀ (T : IDXType) (D : Nat) (b3 : Byte) (rest : List Byte),
        b3.val ≠ D →
        IDXDecoder.new T D (0 :: 0 :: T.tagByte :: b3 :: rest) =
          .error (.WrongDimensions D b3.val)) := by
  refine ⟨?_, ?_, ?_⟩
  · intro T D b0 b1 b2 b3 rest h
    simp only [IDXDecoder.new]
    rw [if_pos h]
  · intro T D b2 b3 rest h
    simp only [IDXDecoder.new]
    rw [if_neg (by simp), if_pos h]
  · intro T D b3 rest h
    simp only [IDXDecoder.new]
    rw [if_neg (by simp), if_neg (by simp [IDXType.tagByte]), if_pos h]

theorem header_validation_order_witness :
    IDXDecoder.new .U8 1 [1, 0, 8, 1] = .error .WrongMagic ∧
    IDXDecoder.new .U8 1 [0, 0, 13, 1] = .error (.WrongType 8 13) ∧
    IDXDecoder.new .I16 3 [0, 0, 11, 1] = .error (.WrongDimensions 3 1) :=
  ⟨header_validation_order.1 .U8 1 1 0 8 1 [] (by decide),
    header_validation_order.2.1 .U8 1 13 1 [] (by decide),
    header_validation_order.2.2 .I16 3 1 [] (by decide)⟩

/-- Claim C5: for every valid header with dimensionality `D` and dimension
values `dims` (each a `u32`, encoded big-endian in header order),
construction succeeds and the decoder state holds exactly the parsed
dimension vector and the untouched remainder of the stream; `dimensions()`
is a pure clone accessor (here the structure projection), so the shape is
unchanged until the first `next()` call mutates the state. -/
theorem shape_round_trip (T : IDXType) (D : Nat) (dims : List Nat) (s : List Byte)
    (hD1 : 1 ≤ D) (hD : D ≤ 255) (hlen : dims.length = D)
    (hdims : ∀ d ∈ dims, d < 2 ^ 32) :
    IDXDecoder.new T D (mkHeader T D dims ++ s) = Except.ok ⟨s, dims⟩ := by
  subst hlen
  simp only [mkHeader, List.cons_append, List.nil_append, IDXDecoder.new]
  rw [if_neg (by simp), if_neg (by simp [IDXType.tagByte]),
    if_neg (by simp [Nat.mod_eq_of_lt (show dims.length < 256 by omega)]),
    readDims_encodeDims dims hdims s]

theorem shape_round_trip_witness :
    IDXDecoder.new .U8 1 (mkHeader .U8 1 [3] ++ [1, 2, 3]) =
      Except.ok ⟨[1, 2, 3], [3]⟩ :=
  shape_round_trip .U8 1 [3] [1, 2, 3] (by decide) (by decide) (by decide) (by decide)

/-- Claim C6: with items remaining, if `dimensions[1]` or `dimensions[2]`
does not fit the platform item-count width `W`, or their true product does
not, the `U3` iterator returns `none` rather than wrapping the
multiplication or producing a wrong-sized row. -/
theorem row_size_overflow_none (W : Nat) (T : IDXType) (dec : IDXDecoder)
    (h0 : 0 < dec.dimensions.getD 0 0)
    (hov : 2 ^ W ≤ dec.dimensions.getD 1 0 ∨ 2 ^ W ≤ dec.dimensions.getD 2 0 ∨
      2 ^ W ≤ dec.dimensions.getD 1 0 * dec.dimensions.getD 2 0) :
    (next3 W T dec).1 = none := by
  unfold next3
  rw [if_pos h0]
  by_cases h1 : dec.dimensions.getD 1 0 < 2 ^ W
  · by_cases h2 : dec.dimensions.getD 2 0 < 2 ^ W
    · have hm : ¬ dec.dimensions.getD 1 0 * dec.dimensions.getD 2 0 < 2 ^ W := by
        rcases hov with h | h | h
        · exact absurd h (Nat.not_le.mpr h1)
        · exact absurd h (Nat.not_le.mpr h2)
        · exact Nat.not_lt.mpr h
      have e1 : as_usize W (dec.dimensions.getD 1 0) = some (dec.dimensions.getD 1 0) := by
        unfold as_usize
        rw [if_pos h1]
      have e2 : as_usize W (dec.dimensions.getD 2 0) = some (dec.dimensions.getD 2 0) := by
        unfold as_usize
        rw [if_pos h2]
      have e3 : checked_mul W (dec.dimensions.getD 1 0) (dec.dimensions.getD 2 0) = none := by
        unfold checked_mul
        rw [if_neg hm]
      rw [e1, e2]
      dsimp only
      rw [e3]
    · have e2 : as_usize W (dec.dimensions.getD 2 0) = none := by
        unfold as_usize
        rw [if_neg h2]
      rw [e2]
      cases as_usize W (dec.dimensions.getD 1 0) <;> rfl
  · have e1 : as_usize W (dec.dimensions.getD 1 0) = none := by
      unfold as_usize
      rw [if_neg h1]
    rw [e1]

theorem row_size_overflow_none_witness :
    0 < (⟨[], [1, 70000, 1]⟩ : IDXDecoder).dimensions.getD 0 0 ∧
    2 ^ 16 ≤ (⟨[], [1, 70000, 1]⟩ : IDXDecoder).dimensions.getD 1 0 ∧
    (next3 16 .U8 ⟨[], [1, 70000, 1]⟩).1 = none :=
  ⟨by decide, by decide,
    row_size_overflow_none 16 .U8 ⟨[], [1, 70000, 1]⟩ (by decide) (Or.inl (by decide))⟩

/-- Claim C7: decoding a float element reads exactly the element's width in
bytes (4 for `F32`, 8 for `F64`), interprets them as a big-endian unsigned
integer of the same width, and reinterprets that bit pattern as the float
(`fN::from_bits`; the `Value.f32`/`Value.f64` constructors carry that bit
pattern).  When fewer bytes than the width are available the decode returns
no value. -/
theorem float_decode_bit_pattern :
    (∀ s : List Byte,
      (4 ≤ s.length →
        read_self .F32 s = (some (.f32 (beValue (s.take 4))), s.drop 4)) ∧
      (s.length < 4 → (read_self .F32 s).1 = none)) ∧
    (∀ s : List Byte,
      (8 ≤ s.length →
        read_self .F64 s = (some (.f64 (beValue (s.take 8))), s.drop 8)) ∧
      (s.length < 8 → (read_self .F64 s).1 = none)) := by
  constructor
  · intro s
    constructor
    · intro h
      simp [read_self, IDXType.size, h, decodeBytes]
    · intro h
      simp [read_self, IDXType.size, Nat.not_le.mpr h]
  · intro s
    constructor
    · intro h
      simp [read_self, IDXType.size, h, decodeBytes]
    · intro h
      simp [read_self, IDXType.size, Nat.not_le.mpr h]

theorem float_decode_bit_pattern_witness :
    (4 ≤ ([63, 128, 0, 0] : List Byte).length ∧
      read_self .F32 [63, 128, 0, 0] =
        (some (.f32 (beValue (([63, 128, 0, 0] : List Byte).take 4))),
          ([63, 128, 0, 0] : List Byte).drop 4)) ∧
    (([1] : List Byte).length < 8 ∧ (read_self .F64 [1]).1 = none) :=
  ⟨⟨by decide, (float_decode_bit_pattern.1 [63, 128, 0, 0]).1 (by decide)⟩,
    ⟨by decide, (float_decode_bit_pattern.2 [1]).2 (by decide)⟩⟩


/-- Claim C8, counterexample: the `U1` iterator does not override
`size_hint`, so on a freshly constructed decoder with 3 items remaining the
hint is Rust's default `(0, None)` and not the exact remaining count
`(3, Some 3)` the claim asserts. -/
theorem size_hint_1d_not_exact :
    (⟨[1, 2, 3], [3]⟩ : IDXDecoder).dimensions.getD 0 0 = 3 ∧
    size_hint1 ⟨[1, 2, 3], [3]⟩ = (0, none) ∧
    size_hint1 ⟨[1, 2, 3], [3]⟩ ≠ (3, some 3) := by
  refine ⟨rfl, rfl, ?_⟩
  decide

/-- Claim C8, amended: the `U1` iterator's `size_hint` is always the Rust
default `(0, None)` — a sound but inexact bound: at every point the number
of items any run of `next()` calls actually produces never exceeds the
remaining count `dimensions[0]`, but that exact count is not reported in
the hint. -/
theorem size_hint_1d_default (T : IDXType) (dec : IDXDecoder) (n : Nat) :
    size_hint1 dec = (0, none) ∧
    countSome (iterate1 T dec n).1 ≤ dec.dimensions.getD 0 0 := by
  refine ⟨rfl, ?_⟩
  obtain ⟨rd, dims⟩ := dec
  show countSome (iterate1 T ⟨rd, dims⟩ n).1 ≤ dims.getD 0 0
  rw [iterate1_shape T n rd dims, countSome_map_some, countSome_replicate]
  have hle := decodeMany_length_le T (min n (min (dims.getD 0 0) (rd.length / T.size))) rd
  omega

/-- Claim C9: while `dimensions[0] > 0` every `next()` call (on either
implemented dimensionality) decrements `dimensions[0]` by exactly one, even
when it returns `none` because of a short read or a failed row-size
computation; once `dimensions[0] = 0`, `next()` returns `none` without
touching the stream or the state (so at most the initial count of calls
ever read), and a failure is not sticky: if the stream has enough bytes on
a later call while `dimensions[0] > 0`, that call produces an item. -/
theorem count_decrement_invariant :
    (∀ (T : IDXType) (dec : IDXDecoder), 0 < dec.dimensions.getD 0 0 →
      ((next1 T dec).2).dimensions =
        dec.dimensions.set 0 (dec.dimensions.getD 0 0 - 1)) ∧
    (∀ (W : Nat) (T : IDXType) (dec : IDXDecoder), 0 < dec.dimensions.getD 0 0 →
      ((next3 W T dec).2).dimensions =
        dec.dimensions.set 0 (dec.dimensions.getD 0 0 - 1)) ∧
    (∀ (T : IDXType) (dec : IDXDecoder), dec.dimensions.getD 0 0 = 0 →
      next1 T dec = (none, dec)) ∧
    (∀ (W : Nat) (T : IDXType) (dec : IDXDecoder), dec.dimensions.getD 0 0 = 0 →
      next3 W T dec = (none, dec)) ∧
    (∀ (T : IDXType) (c : Nat) (bs : List Byte), T.size ≤ bs.length →
      (next1 T ⟨[], [c + 2]⟩).1 = none ∧
      ((next1 T ⟨bs, ((next1 T ⟨[], [c + 2]⟩).2).dimensions⟩).1).isSome = true) := by
  have hfail : ∀ (T : IDXType) (c : Nat),
      next1 T ⟨[], [c + 2]⟩ = (none, ⟨[], [c + 1]⟩) := by
    intro T c
    rw [next1_read T ⟨[], [c + 2]⟩ (by simp)]
    have hnz : T.size ≠ 0 := by
      have := T.size_pos
      omega
    simp [read_self, hnz]
  refine ⟨?_, ?_, ?_, ?_, ?_⟩
  · intro T dec h
    rw [next1_read T dec h]
  · intro W T dec h
    unfold next3
    rw [if_pos h]
    cases as_usize W (dec.dimensions.getD 1 0) with
    | none => rfl
    | some a =>
      cases as_usize W (dec.dimensions.getD 2 0) with
      | none => rfl
      | some b =>
        dsimp only
        cases checked_mul W a b <;> rfl
  · intro T dec h
    exact next1_zero T dec h
  · intro W T dec h
    unfold next3
    rw [if_neg (by omega)]
  · intro T c bs h
    refine ⟨by rw [hfail], ?_⟩
    rw [hfail]
    rw [next1_read T ⟨bs, [c + 1]⟩ (by simp)]
    simp [read_self, h]

theorem count_decrement_invariant_witness :
    (0 < (⟨[7], [2]⟩ : IDXDecoder).dimensions.getD 0 0 ∧
      ((next1 .U8 ⟨[7], [2]⟩).2).dimensions = ([2] : List Nat).set 0 1) ∧
    (0 < (⟨[], [1, 0, 0]⟩ : IDXDecoder).dimensions.getD 0 0 ∧
      ((next3 64 .U8 ⟨[], [1, 0, 0]⟩).2).dimensions = ([1, 0, 0] : List Nat).set 0 0) ∧
    ((⟨[5], [0]⟩ : IDXDecoder).dimensions.getD 0 0 = 0 ∧
      next1 .U8 ⟨[5], [0]⟩ = (none, ⟨[5], [0]⟩)) ∧
    ((⟨[5], [0, 1, 1]⟩ : IDXDecoder).dimensions.getD 0 0 = 0 ∧
      next3 64 .U8 ⟨[5], [0, 1, 1]⟩ = (none, ⟨[5], [0, 1, 1]⟩)) ∧
    ((1 : Nat) ≤ ([42] : List Byte).length ∧
      (next1 .U8 ⟨[], [2]⟩).1 = none ∧
      ((next1 .U8 ⟨[42], ((next1 .U8 ⟨[], [2]⟩).2).dimensions⟩).1).isSome = true) :=
  ⟨⟨by decide, count_decrement_invariant.1 .U8 ⟨[7], [2]⟩ (by decide)⟩,
    ⟨by decide, count_decrement_invariant.2.1 64 .U8 ⟨[], [1, 0, 0]⟩ (by decide)⟩,
    ⟨by decide, count_decrement_invariant.2.2.1 .U8 ⟨[5], [0]⟩ (by decide)⟩,
    ⟨by decide, count_decrement_invariant.2.2.2.1 64 .U8 ⟨[5], [0, 1, 1]⟩ (by decide)⟩,
    ⟨by decide, count_decrement_invariant.2.2.2.2 .U8 0 [42] (by decide)⟩⟩

/-- Claim C10: a `U3` decoder whose header declares `d1 * d2 = 0` (either
sub-dimension zero) with count `c` emits an empty row on each of the first
`c` calls without consuming a single byte, and `none` from the `(c+1)`-th
call on.  `32 ≤ W` covers every platform the crate targets, so the `u32`
sub-dimensions always fit the item-count width. -/
theorem zero_len_rows (W : Nat) (T : IDXType) (c d1 d2 : Nat) (bs : List Byte) (k : Nat)
    (hW : 32 ≤ W) (h1 : d1 < 2 ^ 32) (h2 : d2 < 2 ^ 32) (h0 : d1 * d2 = 0) :
    iterate3 W T ⟨bs, [c, d1, d2]⟩ (c + k) =
      (List.replicate c (some []) ++ List.replicate k none, ⟨bs, [0, d1, d2]⟩) := by
  have hpow : (2 : Nat) ^ 32 ≤ 2 ^ W := Nat.pow_le_pow_right (by norm_num) hW
  have h1W : d1 < 2 ^ W := Nat.lt_of_lt_of_le h1 hpow
  have h2W : d2 < 2 ^ W := Nat.lt_of_lt_of_le h2 hpow
  induction c with
  | zero =>
    rw [Nat.zero_add]
    simpa using iterate3_exhausted W T k ⟨bs, [0, d1, d2]⟩ rfl
  | succ c ihc =>
    have hx : next3 W T ⟨bs, [c + 1, d1, d2]⟩ = (some [], ⟨bs, [c, d1, d2]⟩) := by
      unfold next3
      rw [if_pos (by simp)]
      have e1 : as_usize W ((⟨bs, [c + 1, d1, d2]⟩ : IDXDecoder).dimensions.getD 1 0) =
          some d1 := by
        unfold as_usize
        rw [if_pos (by simpa using h1W)]
        simp
      have e2 : as_usize W ((⟨bs, [c + 1, d1, d2]⟩ : IDXDecoder).dimensions.getD 2 0) =
          some d2 := by
        unfold as_usize
        rw [if_pos (by simpa using h2W)]
        simp
      rw [e1, e2]
      dsimp only
      have e3 : checked_mul W d1 d2 = some 0 := by
        unfold checked_mul
        rw [h0, if_pos (Nat.pos_pow_of_pos W (by norm_num))]
      rw [e3]
      dsimp only [readRow]
      simp
    have hn : c + 1 + k = (c + k) + 1 := by omega
    rw [hn]
    simp only [iterate3, hx]
    rw [ihc]
    simp [List.replicate_succ]

theorem zero_len_rows_witness :
    (0 : Nat) * 5 = 0 ∧
    iterate3 32 .U8 ⟨[9], [2, 0, 5]⟩ (2 + 1) =
      (List.replicate 2 (some []) ++ List.replicate 1 none, ⟨[9], [0, 0, 5]⟩) :=
  ⟨by decide,
    zero_len_rows 32 .U8 2 0 5 [9] 1 (by decide) (by decide) (by decide) (by decide)⟩

end Idx
